import Mathlib

/-!
Verification of the NMF deblender core
(`python/lsst/meas/deblender/nmf.py` and `proximal.py`).

Matrices over the footprint are embedded two ways:

* the factorization solver (`createInitWH`, `multiplicativeUpdate`,
  `inverseUpdate`, `getIntensityDiff`, residual diagnostics) works over
  `Matrix (Fin _) (Fin _) ℚ`, with the data matrix `A : bands × pixels`,
  the color matrix `W : bands × sources` and the intensity matrix
  `H : sources × pixels`;
* the symmetry-operator builder (`getPeakSymmetryOperator`,
  `getSymmetryOperator`, `getSymmetryDiffOp`) is embedded as entrywise
  functions `ℕ → ℕ → ℚ` together with the explicit size of each operator,
  because the size of the operator the source builds depends on the
  arguments (the centered-peak branch sizes the operator by
  `np.size(row)` of the slice it is handed).

Floating-point numbers are modelled by exact rationals; the fixed
regularizer `1e-9` of the source becomes the rational `epsQ`.
-/

open Matrix

/-- Fixed regularizer used by the solver: the literal `1e-9` of the source. -/
def epsQ : ℚ := 1 / 1000000000

/-- Model of `np.abs` on a rational scalar, written through a sign test so
that concrete instances evaluate by `decide`; `absQ_eq_abs` identifies it
with the absolute value. -/
def absQ (x : ℚ) : ℚ := if x < 0 then -x else x

/-! ### Solver matrices (nmf.py lines 328-377, 57-91, 536-542) -/

/-- Embedding of `getIntensityDiff` (nmf.py lines 328-339).
`Hdiff[k] = diffOp[k].dot(H[k])` for the rows covered by `diffOp`; rows
of `H` beyond the operator list keep the zeros of `np.zeros(H.shape)`.
The locally computed `bkgOp = (H[-1]-offset)**2` is bound and then
discarded, exactly as in the source. -/
def getIntensityDiff {K P : ℕ} (H : Matrix (Fin K) (Fin P) ℚ)
    (diffOp : List (Matrix (Fin P) (Fin P) ℚ)) (offset : ℚ) (includeBkg : Bool) :
    Matrix (Fin K) (Fin P) ℚ :=
  let Hdiff : Matrix (Fin K) (Fin P) ℚ :=
    Matrix.of fun k j =>
      if hk : (k : ℕ) < diffOp.length then (diffOp.get ⟨k, hk⟩).mulVec (H k) j else 0
  let _bkgOp : Fin P → ℚ := fun j =>
    if hK : 0 < K then
      (if includeBkg then (H ⟨K - 1, Nat.sub_lt hK Nat.one_pos⟩ j - offset) ^ 2 else 0)
    else 0
  Hdiff

/-- Pre-normalization color-matrix update of `multiplicativeUpdate`
(nmf.py lines 347-349): `W * (A·Hᵀ) / (W·H·Hᵀ + 1e-9)` entrywise. -/
def multiplicativeUpdatePreW {B K P : ℕ} (A : Matrix (Fin B) (Fin P) ℚ)
    (W : Matrix (Fin B) (Fin K) ℚ) (H : Matrix (Fin K) (Fin P) ℚ) :
    Matrix (Fin B) (Fin K) ℚ :=
  Matrix.of fun i j => W i j * (A * Hᵀ) i j / ((W * H * Hᵀ) i j + epsQ)

/-- Embedding of `multiplicativeUpdate` (nmf.py lines 341-364): the Lee-Seung
multiplicative update of `W` followed by column normalization by the sum of
absolute values (zero sums replaced by 1), then the multiplicative update of
`H`, whose denominator gains `beta*Hdiff` when a difference-operator list is
supplied. -/
def multiplicativeUpdate {B K P : ℕ} (A : Matrix (Fin B) (Fin P) ℚ)
    (W : Matrix (Fin B) (Fin K) ℚ) (H : Matrix (Fin K) (Fin P) ℚ)
    (offset : ℚ) (includeBkg : Bool) (beta : ℚ)
    (diffOp : Option (List (Matrix (Fin P) (Fin P) ℚ))) :
    Matrix (Fin B) (Fin K) ℚ × Matrix (Fin K) (Fin P) ℚ :=
  let W1 := multiplicativeUpdatePreW A W H
  let nf : Fin K → ℚ := fun j => ∑ i, absQ (W1 i j)
  let nf2 : Fin K → ℚ := fun j => if nf j = 0 then 1 else nf j
  let W2 : Matrix (Fin B) (Fin K) ℚ := Matrix.of fun i j => W1 i j / nf2 j
  let numH := W2ᵀ * A
  let denomH : Matrix (Fin K) (Fin P) ℚ :=
    match diffOp with
    | some dOp =>
        Matrix.of fun k j =>
          (W2ᵀ * W2 * H) k j + beta * (getIntensityDiff H dOp offset includeBkg) k j + epsQ
    | none => Matrix.of fun k j => (W2ᵀ * W2 * H) k j + epsQ
  let H1 : Matrix (Fin K) (Fin P) ℚ :=
    Matrix.of fun k j => H k j * numH k j / denomH k j
  (W2, H1)

/-- Iterated multiplicative update: `MulticolorCalExp.deblend` (nmf.py lines
530-533) applies `multiplicativeUpdate` to the same data matrix for a
caller-chosen number of steps, threading `(W, H)` through. -/
def multiplicativeUpdateIter {B K P : ℕ} (A : Matrix (Fin B) (Fin P) ℚ)
    (offset : ℚ) (includeBkg : Bool) (beta : ℚ)
    (diffOp : Option (List (Matrix (Fin P) (Fin P) ℚ))) :
    ℕ → Matrix (Fin B) (Fin K) ℚ × Matrix (Fin K) (Fin P) ℚ →
      Matrix (Fin B) (Fin K) ℚ × Matrix (Fin K) (Fin P) ℚ
  | 0, WH => WH
  | Nat.succ n, WH =>
      multiplicativeUpdateIter A offset includeBkg beta diffOp n
        (multiplicativeUpdate A WH.1 WH.2 offset includeBkg beta diffOp)

/-- Initial intensity matrix of `createInitWH` (nmf.py lines 64-80): row `k`
is the unweighted mean over bands of the supplied per-band template profile,
and the last row is overwritten with the constant `offset` when a background
row is included. -/
def createInitWHintensity {B K P : ℕ} (tmpl : Fin K → Fin B → Fin P → ℚ)
    (offset : ℚ) (includeBkg : Bool) : Matrix (Fin K) (Fin P) ℚ :=
  Matrix.of fun k j =>
    if includeBkg ∧ (k : ℕ) = K - 1 then offset else (∑ b, tmpl k b j) / (B : ℚ)

/-- Color matrix of `createInitWH` before normalization (nmf.py line 82):
`W = np.dot(data, np.linalg.pinv(H))`.  The Moore-Penrose pseudoinverse is
abstracted as a function argument `pinv`; the normalization behaviour under
scrutiny does not depend on it. -/
def createInitWHpreW {B K P : ℕ}
    (pinv : Matrix (Fin K) (Fin P) ℚ → Matrix (Fin P) (Fin K) ℚ)
    (data : Matrix (Fin B) (Fin P) ℚ) (tmpl : Fin K → Fin B → Fin P → ℚ)
    (offset : ℚ) (includeBkg : Bool) : Matrix (Fin B) (Fin K) ℚ :=
  data * pinv (createInitWHintensity tmpl offset includeBkg)

/-- Embedding of `createInitWH` (nmf.py lines 57-91): build the initial
intensity matrix, solve for `W` through the pseudoinverse, then divide each
column of `W` by its (signed) sum — zero sums replaced by 1 — and multiply
the corresponding row of `H` by the same factor. -/
def createInitWH {B K P : ℕ}
    (pinv : Matrix (Fin K) (Fin P) ℚ → Matrix (Fin P) (Fin K) ℚ)
    (data : Matrix (Fin B) (Fin P) ℚ) (tmpl : Fin K → Fin B → Fin P → ℚ)
    (offset : ℚ) (includeBkg : Bool) :
    Matrix (Fin B) (Fin K) ℚ × Matrix (Fin K) (Fin P) ℚ :=
  let H := createInitWHintensity tmpl offset includeBkg
  let W := createInitWHpreW pinv data tmpl offset includeBkg
  let nf : Fin K → ℚ := fun j => ∑ i, W i j
  let nf2 : Fin K → ℚ := fun j => if nf j = 0 then 1 else nf j
  (Matrix.of fun i j => W i j / nf2 j, Matrix.of fun k j => H k j * nf2 k)

/-- Model of `np.linalg.inv` on an invertible rational matrix: the inverse
written through the adjugate, `(det M)⁻¹ • adjugate M`.  On the invertible
inputs the source feeds it, this is exactly the matrix inverse. -/
def npInv {n : ℕ} (M : Matrix (Fin n) (Fin n) ℚ) : Matrix (Fin n) (Fin n) ℚ :=
  (M.det)⁻¹ • M.adjugate

/-- Entrywise addition of the scalar regularizer, modelling the numpy
broadcast `M + 1e-9`, which adds `1e-9` to every entry of `M`. -/
def addEpsAll {n : ℕ} (M : Matrix (Fin n) (Fin n) ℚ) : Matrix (Fin n) (Fin n) ℚ :=
  Matrix.of fun i j => M i j + epsQ

/-- Embedding of `inverseUpdate` (nmf.py lines 366-377):
`W = np.dot(np.linalg.inv(np.dot(H, H.T)+1e-9), np.dot(H, A.T)).T`, column
normalization by sums of absolute values with zero sums replaced by 1, then
`H = np.dot(np.linalg.inv(np.dot(W.T, W)+1e-9), np.dot(W.T, A))` with the
updated `W`. -/
def inverseUpdate {B K P : ℕ} (A : Matrix (Fin B) (Fin P) ℚ)
    (H : Matrix (Fin K) (Fin P) ℚ) :
    Matrix (Fin B) (Fin K) ℚ × Matrix (Fin K) (Fin P) ℚ :=
  let W1 := (npInv (addEpsAll (H * Hᵀ)) * (H * Aᵀ))ᵀ
  let nf : Fin K → ℚ := fun j => ∑ i, absQ (W1 i j)
  let nf2 : Fin K → ℚ := fun j => if nf j = 0 then 1 else nf j
  let W2 : Matrix (Fin B) (Fin K) ℚ := Matrix.of fun i j => W1 i j / nf2 j
  let H1 := npInv (addEpsAll (W2ᵀ * W2)) * (W2ᵀ * A)
  (W2, H1)

/-- Modelled from the spec (claim C7, amended): the closed-form update
written in the order the spec states it, `W = A·Hᵀ·(H·Hᵀ + ε·ones)⁻¹`
with the regularizer added to every entry, then the same normalization,
then `H = (Wᵀ·W + ε·ones)⁻¹·Wᵀ·A`. -/
def inverseUpdateSpecOnes {B K P : ℕ} (A : Matrix (Fin B) (Fin P) ℚ)
    (H : Matrix (Fin K) (Fin P) ℚ) :
    Matrix (Fin B) (Fin K) ℚ × Matrix (Fin K) (Fin P) ℚ :=
  let W1 := A * Hᵀ * npInv (addEpsAll (H * Hᵀ))
  let nf : Fin K → ℚ := fun j => ∑ i, absQ (W1 i j)
  let nf2 : Fin K → ℚ := fun j => if nf j = 0 then 1 else nf j
  let W2 : Matrix (Fin B) (Fin K) ℚ := Matrix.of fun i j => W1 i j / nf2 j
  let H1 := npInv (addEpsAll (W2ᵀ * W2)) * (W2ᵀ * A)
  (W2, H1)

/-- Modelled from the spec (claim C7 as frozen): the same update but with
the regularizer added on the diagonal only, `(H·Hᵀ + εI)⁻¹` and
`(Wᵀ·W + εI)⁻¹`. -/
def inverseUpdateSpecEpsI {B K P : ℕ} (A : Matrix (Fin B) (Fin P) ℚ)
    (H : Matrix (Fin K) (Fin P) ℚ) :
    Matrix (Fin B) (Fin K) ℚ × Matrix (Fin K) (Fin P) ℚ :=
  let W1 := A * Hᵀ * npInv (H * Hᵀ + epsQ • (1 : Matrix (Fin K) (Fin K) ℚ))
  let nf : Fin K → ℚ := fun j => ∑ i, absQ (W1 i j)
  let nf2 : Fin K → ℚ := fun j => if nf j = 0 then 1 else nf j
  let W2 : Matrix (Fin B) (Fin K) ℚ := Matrix.of fun i j => W1 i j / nf2 j
  let H1 := npInv (W2ᵀ * W2 + epsQ • (1 : Matrix (Fin K) (Fin K) ℚ)) * (W2ᵀ * A)
  (W2, H1)

/-- Residual-energy diagnostic of `MulticolorCalExp.deblend` (nmf.py lines
536-542): for a band, `np.abs(np.sum(diff)/np.sum(self.data[fidx]))` where
`diff = (np.dot(W, H) - data)[fidx]`.  The display multiplies this by 100
for a percentage; the factor is formatting and is not modelled. -/
def residualFraction {B K P : ℕ} (W : Matrix (Fin B) (Fin K) ℚ)
    (H : Matrix (Fin K) (Fin P) ℚ) (A : Matrix (Fin B) (Fin P) ℚ) (b : Fin B) : ℚ :=
  absQ ((∑ j, ((W * H) b j - A b j)) / (∑ j, A b j))

/-- Modelled from the spec (claim C9 as frozen): the residual-energy
fraction written as `Σ|residual| / Σ|A[band]|`. -/
def residualFractionSpec {B K P : ℕ} (W : Matrix (Fin B) (Fin K) ℚ)
    (H : Matrix (Fin K) (Fin P) ℚ) (A : Matrix (Fin B) (Fin P) ℚ) (b : Fin B) : ℚ :=
  (∑ j, absQ ((W * H) b j - A b j)) / (∑ j, absQ (A b j))

/-! ### Error model for unimplemented features (proximal.py) -/

/-- Failure surfaced to the caller by the deblender classes. -/
inductive NmfError where
  | notImplemented : String → NmfError
  deriving DecidableEq

/-- Control flow of `DeblendedParent.initNMF` (proximal.py lines 222-235)
restricted to the PSF-operator request: `if initPsf: raise
NotImplementedError(...)` else the PSF operator is left as `None` and the
call succeeds.  The data-matrix construction it also performs is orthogonal
to the error behaviour and is not modelled. -/
def DeblendedParentInitNMF (initPsf : Bool) : Except NmfError Unit :=
  if initPsf then
    Except.error (NmfError.notImplemented "The PSF Operator is not yet implemented")
  else Except.ok ()

/-- Embedding of `DeblendedParent.getMonotonicOp` (proximal.py lines
259-265): the body is commented out and the method returns `None` without
raising. -/
def DeblendedParentGetMonotonicOp : Except NmfError (Option Unit) :=
  Except.ok none

/-- Constraint dispatch of `ExposureDeblend.deblendParent` (proximal.py
lines 440-449): both the symmetry and the monotonicity branches are
`pass`, so any requested constraint operator is silently skipped. -/
def deblendParentConstraintOps (constraints : String) : Except NmfError Unit :=
  let lower := constraints.toLower
  let _symBranch : Unit := if lower.contains 's' then () else ()
  let _monoBranch : Unit := if lower.contains 'm' then () else ()
  Except.ok ()

/-! ### Symmetry operators (nmf.py lines 250-326), entrywise over ℕ -/

/-- Entrywise matrix product of two square operators of size `n`. -/
def mmulN (n : ℕ) (M N : ℕ → ℕ → ℚ) : ℕ → ℕ → ℚ :=
  fun i j => ∑ k in Finset.range n, M i k * N k j

/-- Matrix-vector product of a square operator of size `n`. -/
def mulVecN (n : ℕ) (M : ℕ → ℕ → ℚ) (v : ℕ → ℚ) : ℕ → ℚ :=
  fun i => ∑ k in Finset.range n, M i k * v k

/-- Transpose of an entrywise operator. -/
def transposeN (M : ℕ → ℕ → ℚ) : ℕ → ℕ → ℚ := fun i j => M j i

/-- Identity operator of size `n`: `scipy.sparse.eye(n)`. -/
def eyeN (n : ℕ) : ℕ → ℕ → ℚ := fun i j => if i = j ∧ i < n then 1 else 0

/-- Full reversal `np.fliplr(np.eye(n))`, the anti-diagonal identity. -/
def fliplrEye (n : ℕ) : ℕ → ℕ → ℚ :=
  fun i j => if i < n ∧ j < n ∧ i + j + 1 = n then 1 else 0

/-- Lower bound `ymin` of the symmetric sub-rectangle (nmf.py lines
260-268); `py < (h-1)/2` and `py > (h-1)/2` become `2*py+1 < h` and
`2*py+1 > h`. -/
def symYmin (h py : ℕ) : ℕ := if 2 * py + 1 > h then 2 * py + 1 - h else 0

/-- Upper bound `ymax` of the symmetric sub-rectangle. -/
def symYmax (h py : ℕ) : ℕ := if 2 * py + 1 < h then 2 * py + 1 else h

/-- Lower bound `xmin` of the symmetric sub-rectangle (nmf.py lines
269-277). -/
def symXmin (w px : ℕ) : ℕ := if 2 * px + 1 > w then 2 * px + 1 - w else 0

/-- Upper bound `xmax` of the symmetric sub-rectangle. -/
def symXmax (w px : ℕ) : ℕ := if 2 * px + 1 < w then 2 * px + 1 else w

/-- Width `tWidth = xmax - xmin` of the symmetric sub-rectangle. -/
def tWidthD (w px : ℕ) : ℕ := symXmax w px - symXmin w px

/-- Height `tHeight = ymax - ymin` of the symmetric sub-rectangle. -/
def tHeightD (h py : ℕ) : ℕ := symYmax h py - symYmin h py

/-- Remainder `extraWidth = fpWidth - tWidth` of a footprint row not
covered by the sub-rectangle. -/
def extraWidthD (w px : ℕ) : ℕ := w - tWidthD w px

/-- Size `pixels = (tHeight-1)*fpWidth + tWidth` of the symmetric
sub-block. -/
def pixelsD (h w px py : ℕ) : ℕ := (tHeightD h py - 1) * w + tWidthD w px

/-- Flat offset `smin = ymin*fpWidth + xmin` of the sub-block. -/
def sminD (h w px py : ℕ) : ℕ := symYmin h py * w + symXmin w px

/-- Flat bound `smax = (ymax-1)*fpWidth + xmax` of the sub-block. -/
def smaxD (h w px py : ℕ) : ℕ := (symYmax h py - 1) * w + symXmax w px

/-- Index set zeroed on the diagonal of the sub-block before reversal
(nmf.py lines 288-291): `idx = (i+1)*tWidth + i*extraWidth + j` for
`i < tHeight-1` and `j < extraWidth`. -/
def subOpZero (h w px py idx : ℕ) : Prop :=
  ∃ i < tHeightD h py - 1, ∃ j < extraWidthD w px,
    idx = (i + 1) * tWidthD w px + i * extraWidthD w px + j

instance subOpZeroDecidable (h w px py idx : ℕ) : Decidable (subOpZero h w px py idx) := by
  unfold subOpZero
  exact inferInstance

/-- Sub-block before reversal: `np.eye(pixels, pixels)` with the diagonal
entries of `subOpZero` set to 0. -/
def subOpPre (h w px py : ℕ) : ℕ → ℕ → ℚ :=
  fun r c =>
    if r = c ∧ r < pixelsD h w px py ∧ ¬subOpZero h w px py r then 1 else 0

/-- Sub-block after reversal: `np.fliplr(subOp)`. -/
def subOpFlip (h w px py : ℕ) : ℕ → ℕ → ℚ :=
  fun r c =>
    if c < pixelsD h w px py then subOpPre h w px py r (pixelsD h w px py - 1 - c) else 0

/-- Size of the operator built by `getPeakSymmetryOperator`: in the
centered-peak branch it is `np.size(row)` of the argument handed in,
otherwise `fpSize = fpHeight*fpWidth`. -/
def getPeakSymmetryOperatorSize (rowSize h w px py : ℕ) : ℕ :=
  if 2 * px + 1 = w ∧ 2 * py + 1 = h then rowSize else h * w

/-- Embedding of `getPeakSymmetryOperator` (nmf.py lines 250-300).  The
argument `rowSize` is `np.size(row)` of the first argument of the source
function (only used by the centered-peak branch).  The peak exactly at the
geometric center (`px == (w-1)/2` and `py == (h-1)/2` over the reals, i.e.
`2*px+1 = w` and `2*py+1 = h`) yields the full reversal; otherwise the
reversed sub-block is embedded at flat offset `smin`. -/
def getPeakSymmetryOperator (rowSize h w px py : ℕ) : ℕ → ℕ → ℚ :=
  if 2 * px + 1 = w ∧ 2 * py + 1 = h then fliplrEye rowSize
  else
    fun i j =>
      if sminD h w px py ≤ i ∧ i < smaxD h w px py ∧
          sminD h w px py ≤ j ∧ j < smaxD h w px py then
        subOpFlip h w px py (i - sminD h w px py) (j - sminD h w px py)
      else 0

/-- Embedding of `getSymmetryOperator` (nmf.py lines 302-313) for an
intensity matrix with `K` rows and `P = h*w` pixels: one operator per peak,
the `n`-th built from the slice `H[n:]` whose size is `(K-n)*P`.  Each list
entry is the size of the operator paired with its entries. -/
def getSymmetryOperator (K P h w : ℕ) (peaks : List (ℕ × ℕ)) :
    List (ℕ × (ℕ → ℕ → ℚ)) :=
  peaks.enum.map fun pk =>
    (getPeakSymmetryOperatorSize ((K - pk.1) * P) h w pk.2.1 pk.2.2,
     getPeakSymmetryOperator ((K - pk.1) * P) h w pk.2.1 pk.2.2)

/-- Per-peak difference operator as `getSymmetryDiffOp` builds it (nmf.py
line 324): `scipy.sparse.eye(sk.shape[0]) + sk.dot(sk) - 2*sk`. -/
def peakSymmetryDiffOp (rowSize h w px py : ℕ) : ℕ → ℕ → ℚ :=
  fun i j =>
    eyeN (getPeakSymmetryOperatorSize rowSize h w px py) i j
      + mmulN (getPeakSymmetryOperatorSize rowSize h w px py)
          (getPeakSymmetryOperator rowSize h w px py)
          (getPeakSymmetryOperator rowSize h w px py) i j
      - 2 * getPeakSymmetryOperator rowSize h w px py i j

/-- Embedding of `getSymmetryDiffOp` (nmf.py lines 315-326): the
difference operator `eye + S·S - 2S` for every symmetry operator in the
list built by `getSymmetryOperator`. -/
def getSymmetryDiffOp (K P h w : ℕ) (peaks : List (ℕ × ℕ)) :
    List (ℕ × (ℕ → ℕ → ℚ)) :=
  (getSymmetryOperator K P h w peaks).map fun sk =>
    (sk.1, fun i j => eyeN sk.1 i j + mmulN sk.1 sk.2 sk.2 i j - 2 * sk.2 i j)

/-- Membership of a grid cell in the symmetric sub-rectangle
`[ymin, ymax) × [xmin, xmax)`. -/
def inRect (h w px py y x : ℕ) : Prop :=
  symYmin h py ≤ y ∧ y < symYmax h py ∧ symXmin w px ≤ x ∧ x < symXmax w px

instance inRectDecidable (h w px py y x : ℕ) : Decidable (inRect h w px py y x) := by
  unfold inRect
  exact inferInstance

/-- Point symmetry of a flattened intensity row about the peak `(px, py)`
of an `h × w` grid: cells mirrored through the peak carry equal values
whenever both lie in the grid. -/
def pointSymmetric (h w px py : ℕ) (v : ℕ → ℚ) : Prop :=
  ∀ y < h, ∀ x < w, ∀ y2 < h, ∀ x2 < w,
    y + y2 = 2 * py → x + x2 = 2 * px → v (y * w + x) = v (y2 * w + x2)

set_option synthInstance.maxSize 400 in
instance pointSymmetricDecidable (h w px py : ℕ) (v : ℕ → ℚ) :
    Decidable (pointSymmetric h w px py v) := by
  unfold pointSymmetric
  exact inferInstance

/-- Difference operator produced by `getSymmetryDiffOp` for a 1×3
footprint with the single peak (1, 0) at the exact center and a
single-row intensity matrix (`K = 1`, `P = 3`), repackaged as a 3×3
rational matrix.  Used to exercise `multiplicativeUpdate` with a supplied
per-source difference operator. -/
def c1DiffOpExample : Matrix (Fin 3) (Fin 3) ℚ :=
  Matrix.of fun i j => ((getSymmetryDiffOp 1 3 1 3 [(1, 0)]).get ⟨0, by decide⟩).2 i j

/-- Intensity row equal to 1 on every pixel of a 1×3 footprint: it
satisfies the point-symmetry condition about any peak, in particular about
the edge peak (0, 0). -/
def c5RowExample : ℕ → ℚ := fun i => if i < 3 then 1 else 0

/-! ### Helper lemmas -/

theorem absQ_eq_abs (x : ℚ) : absQ x = |x| := by
  unfold absQ
  rcases lt_or_le x 0 with hx | hx
  · rw [if_pos hx, abs_of_neg hx]
  · rw [if_neg (not_lt.mpr hx), abs_of_nonneg hx]

theorem absQ_nonneg (x : ℚ) : 0 ≤ absQ x := by
  rw [absQ_eq_abs]
  exact abs_nonneg x

theorem absQ_of_nonneg {x : ℚ} (hx : 0 ≤ x) : absQ x = x := by
  rw [absQ_eq_abs]
  exact abs_of_nonneg hx

/-! ### Claims C8, C9, C10, C4 -/

/-- Claim C8, counterexample: requesting the monotonicity operator does not
surface a "not supported" failure — `getMonotonicOp` returns successfully
with no operator, and the constraint dispatch of `deblendParent` with the
monotonicity constraint "M" also returns successfully. -/
theorem c8_counterexample :
    DeblendedParentGetMonotonicOp = Except.ok none ∧
      deblendParentConstraintOps "M" = Except.ok () :=
  ⟨rfl, rfl⟩

/-- Claim C8 (amended): requesting the PSF operator raises
`NotImplementedError`, while requesting the monotonicity operator silently
no-ops: `getMonotonicOp` returns `None` without raising and the
constraint dispatch of `deblendParent` does nothing for the "M"
constraint. -/
theorem c8_amended :
    DeblendedParentInitNMF true =
        Except.error (NmfError.notImplemented "The PSF Operator is not yet implemented") ∧
      DeblendedParentInitNMF false = Except.ok () ∧
      DeblendedParentGetMonotonicOp = Except.ok none ∧
      deblendParentConstraintOps "M" = Except.ok () :=
  ⟨rfl, rfl, rfl, rfl⟩

/-- Claim C9, counterexample: at `W = [[1]]`, `H = [[2, 0]]`,
`A = [[1, 1]]` the reported residual fraction is `|((2-1)+(0-1))/2| = 0`,
while `Σ|residual| / Σ|A[band]|` is `(1+1)/(1+1) = 1`. -/
theorem c9_counterexample :
    residualFraction !![(1 : ℚ)] !![(2 : ℚ), 0] !![(1 : ℚ), 1] 0 ≠
      residualFractionSpec !![(1 : ℚ)] !![(2 : ℚ), 0] !![(1 : ℚ), 1] 0 := by
  norm_num [residualFraction, residualFractionSpec, absQ, Matrix.mul_apply,
    Fin.sum_univ_succ]

/-- Claim C9 (amended): for each band, the residual-energy fraction
reported after solving is the absolute value of the sum of the residual
entries divided by the absolute value of the sum of that band's data
entries, `|Σ residual| / |Σ A[band]|` (displayed multiplied by 100 as a
percentage), not the ratio of sums of absolute values. -/
theorem c9_amended :
    ∀ (B K P : ℕ) (W : Matrix (Fin B) (Fin K) ℚ) (H : Matrix (Fin K) (Fin P) ℚ)
      (A : Matrix (Fin B) (Fin P) ℚ) (b : Fin B),
      residualFraction W H A b =
        |∑ j, ((W * H) b j - A b j)| / |∑ j, A b j| := by
  intro B K P W H A b
  simp only [residualFraction]
  rw [absQ_eq_abs]
  exact abs_div _ _

/-- Claim C10: the result of `getIntensityDiff` depends only on `H` and the
difference-operator list — the `offset` and `includeBkg` arguments never
influence it (the internally computed background penalty term is
discarded), and every row of the returned `Hdiff` beyond the
difference-operator list (in particular the background row, which has no
operator) is zero. -/
theorem c10_theorem :
    (∀ (K P : ℕ) (H : Matrix (Fin K) (Fin P) ℚ)
        (diffOp : List (Matrix (Fin P) (Fin P) ℚ)) (offset : ℚ) (includeBkg : Bool),
      getIntensityDiff H diffOp offset includeBkg = getIntensityDiff H diffOp 0 false) ∧
    (∀ (K P : ℕ) (H : Matrix (Fin K) (Fin P) ℚ)
        (diffOp : List (Matrix (Fin P) (Fin P) ℚ)) (offset : ℚ) (includeBkg : Bool)
        (k : Fin K) (j : Fin P), diffOp.length ≤ (k : ℕ) →
      getIntensityDiff H diffOp offset includeBkg k j = 0) := by
  constructor
  · intro K P H diffOp offset includeBkg
    rfl
  · intro K P H diffOp offset includeBkg k j hk
    simp only [getIntensityDiff, Matrix.of_apply]
    rw [dif_neg (by omega)]

/-- Claim C10, witness: a concrete instance of both conjuncts, with a
two-row intensity matrix and an empty operator list. -/
theorem c10_witness :
    getIntensityDiff (K := 2) (P := 1) (Matrix.of fun _ _ => (5 : ℚ)) [] 7 true =
        getIntensityDiff (Matrix.of fun _ _ => (5 : ℚ)) [] 0 false ∧
      getIntensityDiff (K := 2) (P := 1) (Matrix.of fun _ _ => (5 : ℚ)) [] 7 true 1 0 = 0 :=
  ⟨c10_theorem.1 2 1 _ [] 7 true,
   c10_theorem.2 2 1 _ [] 7 true 1 0 (by decide)⟩

/-- Claim C4, code bug: `getSymmetryOperator` passes the slice `H[n:]` —
not the single row `H[n]` — to `getPeakSymmetryOperator`, whose
centered-peak branch sizes its operator by `np.size(row)`.  For an
intensity matrix with 3 rows (2 peaks plus background) over a 1×3
footprint (P = 3 pixels) whose first peak sits exactly at the geometric
center, the first operator comes out 9×9 instead of P×P = 3×3, while the
docstring of `getPeakSymmetryOperator` promises an operator for "a single
row in H".  The off-center second peak gets the correct 3×3 size. -/
theorem c4_code_bug :
    ((getSymmetryOperator 3 3 1 3 [(1, 0), (0, 0)]).map Prod.fst) = [9, 3] ∧
      (9 : ℕ) ≠ 1 * 3 := by
  decide

/-! ### Claims C1 and C2: the multiplicative path -/

theorem epsQ_nonneg : 0 ≤ epsQ := by norm_num [epsQ]

theorem matMul_entry_nonneg {m n p : ℕ} (M : Matrix (Fin m) (Fin n) ℚ)
    (N : Matrix (Fin n) (Fin p) ℚ) (hM : ∀ i j, 0 ≤ M i j)
    (hN : ∀ i j, 0 ≤ N i j) (i : Fin m) (j : Fin p) : 0 ≤ (M * N) i j := by
  rw [Matrix.mul_apply]
  exact Finset.sum_nonneg fun k _ => mul_nonneg (hM i k) (hN k j)

theorem multiplicativeUpdatePreW_nonneg {B K P : ℕ} (A : Matrix (Fin B) (Fin P) ℚ)
    (W : Matrix (Fin B) (Fin K) ℚ) (H : Matrix (Fin K) (Fin P) ℚ)
    (hA : ∀ i j, 0 ≤ A i j) (hW : ∀ i j, 0 ≤ W i j) (hH : ∀ k j, 0 ≤ H k j)
    (i : Fin B) (j : Fin K) : 0 ≤ multiplicativeUpdatePreW A W H i j := by
  unfold multiplicativeUpdatePreW
  simp only [Matrix.of_apply]
  apply div_nonneg
  · exact mul_nonneg (hW i j) (matMul_entry_nonneg A Hᵀ hA (fun a b => hH b a) i j)
  · exact add_nonneg
      (matMul_entry_nonneg (W * H) Hᵀ (matMul_entry_nonneg W H hW hH) (fun a b => hH b a) i j)
      epsQ_nonneg

theorem multiplicativeUpdate_step_nonneg {B K P : ℕ} (A : Matrix (Fin B) (Fin P) ℚ)
    (W : Matrix (Fin B) (Fin K) ℚ) (H : Matrix (Fin K) (Fin P) ℚ)
    (offset : ℚ) (includeBkg : Bool) (beta : ℚ)
    (diffOp : Option (List (Matrix (Fin P) (Fin P) ℚ)))
    (hA : ∀ i j, 0 ≤ A i j) (hW : ∀ i j, 0 ≤ W i j) (hH : ∀ k j, 0 ≤ H k j)
    (hcase : diffOp = none ∨ beta = 0) :
    (∀ i j, 0 ≤ (multiplicativeUpdate A W H offset includeBkg beta diffOp).1 i j) ∧
      (∀ k j, 0 ≤ (multiplicativeUpdate A W H offset includeBkg beta diffOp).2 k j) := by
  have hW1 := multiplicativeUpdatePreW_nonneg A W H hA hW hH
  have hnf2 : ∀ j : Fin K,
      0 ≤ (if (∑ i, absQ (multiplicativeUpdatePreW A W H i j)) = 0 then 1
        else (∑ i, absQ (multiplicativeUpdatePreW A W H i j))) := by
    intro j
    split
    · norm_num
    · exact Finset.sum_nonneg fun i _ => absQ_nonneg _
  have hW2 : ∀ (i : Fin B) (j : Fin K),
      0 ≤ (multiplicativeUpdate A W H offset includeBkg beta diffOp).1 i j := by
    intro i j
    simp only [multiplicativeUpdate, Matrix.of_apply]
    exact div_nonneg (hW1 i j) (hnf2 j)
  refine ⟨hW2, ?_⟩
  intro k j
  have hnum : ∀ (k : Fin K) (j : Fin P),
      0 ≤ ((multiplicativeUpdate A W H offset includeBkg beta diffOp).1ᵀ * A) k j :=
    matMul_entry_nonneg _ A (fun a b => hW2 b a) hA
  have hWtW : ∀ (k : Fin K) (j : Fin P),
      0 ≤ ((multiplicativeUpdate A W H offset includeBkg beta diffOp).1ᵀ *
        (multiplicativeUpdate A W H offset includeBkg beta diffOp).1 * H) k j :=
    matMul_entry_nonneg _ H
      (matMul_entry_nonneg _ _ (fun a b => hW2 b a) hW2) hH
  rcases hcase with hd | hb
  · subst hd
    simp only [multiplicativeUpdate, Matrix.of_apply]
    apply div_nonneg
    · apply mul_nonneg (hH k j)
      simpa only [multiplicativeUpdate, Matrix.of_apply] using hnum k j
    · apply add_nonneg
      · simpa only [multiplicativeUpdate, Matrix.of_apply] using hWtW k j
      · exact epsQ_nonneg
  · subst hb
    cases diffOp with
    | none =>
        simp only [multiplicativeUpdate, Matrix.of_apply]
        apply div_nonneg
        · apply mul_nonneg (hH k j)
          simpa only [multiplicativeUpdate, Matrix.of_apply] using hnum k j
        · apply add_nonneg
          · simpa only [multiplicativeUpdate, Matrix.of_apply] using hWtW k j
          · exact epsQ_nonneg
    | some dOp =>
        simp only [multiplicativeUpdate, Matrix.of_apply, zero_mul, add_zero]
        apply div_nonneg
        · apply mul_nonneg (hH k j)
          simpa only [multiplicativeUpdate, Matrix.of_apply] using hnum k j
        · apply add_nonneg
          · simpa only [multiplicativeUpdate, Matrix.of_apply] using hWtW k j
          · exact epsQ_nonneg

/-- Claim C1, counterexample: with the non-negative inputs
`A = [[1, 1, 1]]`, `W = [[1]]`, `H = [[2, 0, 1]]`, symmetry weight
`beta = 1` and the per-source difference operator built by
`getSymmetryDiffOp` for the centered peak of a 1×3 footprint, a single
multiplicative update already returns an intensity matrix with a negative
entry: the symmetry penalty `beta*Hdiff` drives the update denominator
negative. -/
theorem c1_counterexample :
    (multiplicativeUpdate (B := 1) (K := 1) (P := 3) !![(1 : ℚ), 1, 1] !![(1 : ℚ)]
        !![(2 : ℚ), 0, 1] 0 false 1 (some [c1DiffOpExample])).2 0 2 < 0 := by
  have hD : c1DiffOpExample = !![(2 : ℚ), 0, -2; 0, 0, 0; -2, 0, 2] := by
    have hbase : c1DiffOpExample = Matrix.of fun i j : Fin 3 =>
        eyeN 3 i j + mmulN 3 (fliplrEye 3) (fliplrEye 3) i j - 2 * fliplrEye 3 i j := by
      have hS : getPeakSymmetryOperator 3 1 3 1 0 = fliplrEye 3 := by
        rw [getPeakSymmetryOperator, if_pos ⟨rfl, rfl⟩]
      have : c1DiffOpExample = Matrix.of fun i j : Fin 3 =>
          eyeN 3 i j
            + mmulN 3 (getPeakSymmetryOperator 3 1 3 1 0) (getPeakSymmetryOperator 3 1 3 1 0) i j
            - 2 * getPeakSymmetryOperator 3 1 3 1 0 i j := rfl
      rw [this, hS]
    rw [hbase]
    ext i j
    fin_cases i <;> fin_cases j <;>
      norm_num [eyeN, mmulN, fliplrEye, Finset.sum_range_succ]
  norm_num [multiplicativeUpdate, multiplicativeUpdatePreW, getIntensityDiff, hD,
    Matrix.mul_apply, Matrix.mulVec, Matrix.dotProduct, Fin.sum_univ_succ, absQ, epsQ]

/-- Claim C1 (amended): for every non-negative `A`, `W`, `H`, after any
number of multiplicative-update iterations every entry of the returned `W`
and `H` is ≥ 0, provided the symmetry penalty is inactive — no
difference-operator list is supplied (`diffOp = none`) or `beta = 0`.
With a positive `beta` and supplied operators an entry of `H` can become
negative (`c1_counterexample`). -/
theorem c1_amended {B K P : ℕ} (A : Matrix (Fin B) (Fin P) ℚ)
    (W : Matrix (Fin B) (Fin K) ℚ) (H : Matrix (Fin K) (Fin P) ℚ)
    (offset : ℚ) (includeBkg : Bool) (beta : ℚ)
    (diffOp : Option (List (Matrix (Fin P) (Fin P) ℚ))) (n : ℕ)
    (hA : ∀ i j, 0 ≤ A i j) (hW : ∀ i j, 0 ≤ W i j) (hH : ∀ k j, 0 ≤ H k j)
    (hcase : diffOp = none ∨ beta = 0) :
    (∀ i j, 0 ≤ (multiplicativeUpdateIter A offset includeBkg beta diffOp n (W, H)).1 i j) ∧
      (∀ k j, 0 ≤ (multiplicativeUpdateIter A offset includeBkg beta diffOp n (W, H)).2 k j) := by
  induction n generalizing W H with
  | zero => exact ⟨hW, hH⟩
  | succ n ih =>
      have step := multiplicativeUpdate_step_nonneg A W H offset includeBkg beta diffOp
        hA hW hH hcase
      have hiter : multiplicativeUpdateIter A offset includeBkg beta diffOp (Nat.succ n) (W, H)
          = multiplicativeUpdateIter A offset includeBkg beta diffOp n
              (multiplicativeUpdate A W H offset includeBkg beta diffOp) := rfl
      rw [hiter]
      have h2 := ih (multiplicativeUpdate A W H offset includeBkg beta diffOp).1
        (multiplicativeUpdate A W H offset includeBkg beta diffOp).2 step.1 step.2
      simpa using h2

/-- Claim C1, witness: two iterations on concrete non-negative 1×1
matrices without a difference-operator list keep the intensity matrix
non-negative. -/
theorem c1_witness :
    0 ≤ (multiplicativeUpdateIter (B := 1) (K := 1) (P := 1) !![(1 : ℚ)] 0 true 0 none 2
        (!![(1 : ℚ)], !![(1 : ℚ)])).2 0 0 :=
  (c1_amended !![(1 : ℚ)] !![(1 : ℚ)] !![(1 : ℚ)] 0 true 0 none 2
    (fun i j => by simp) (fun i j => by simp) (fun k j => by simp) (Or.inl rfl)).2 0 0

/-- Claim C2, counterexample: `multiplicativeUpdate` normalizes by sums of
absolute values, so a seed `W` with a (tiny) negative entry — which the
multiplicative path nowhere clamps — produces a returned column whose
pre-normalization (signed and absolute) sums are nonzero yet whose final
sum is not 1. -/
theorem c2_counterexample :
    (∑ i, multiplicativeUpdatePreW (B := 2) (K := 1) (P := 1) !![(1 : ℚ); (1 : ℚ)]
        !![(1 : ℚ); (-1 : ℚ) / 2000000000] !![(1 : ℚ)] i 0) ≠ 0 ∧
    (∑ i, absQ (multiplicativeUpdatePreW (B := 2) (K := 1) (P := 1) !![(1 : ℚ); (1 : ℚ)]
        !![(1 : ℚ); (-1 : ℚ) / 2000000000] !![(1 : ℚ)] i 0)) ≠ 0 ∧
    (∑ i, (multiplicativeUpdate (B := 2) (K := 1) (P := 1) !![(1 : ℚ); (1 : ℚ)]
        !![(1 : ℚ); (-1 : ℚ) / 2000000000] !![(1 : ℚ)] 0 true 0 none).1 i 0) ≠ 1 := by
  norm_num [multiplicativeUpdate, multiplicativeUpdatePreW, absQ, epsQ,
    Matrix.mul_apply, Fin.sum_univ_succ]

/-- Claim C2 (amended): after `createInitWH` every column of the returned
`W` sums to 1 except columns whose (signed) sum before normalization was
exactly 0, which are left unchanged — unconditionally; after
`multiplicativeUpdate` the same holds provided the inputs `A`, `W`, `H`
are entrywise non-negative (the source normalizes by sums of absolute
values, which then agree with the signed sums). -/
theorem c2_amended :
    (∀ (B K P : ℕ) (pinv : Matrix (Fin K) (Fin P) ℚ → Matrix (Fin P) (Fin K) ℚ)
        (data : Matrix (Fin B) (Fin P) ℚ) (tmpl : Fin K → Fin B → Fin P → ℚ)
        (offset : ℚ) (includeBkg : Bool) (j : Fin K),
      ((∑ i, createInitWHpreW pinv data tmpl offset includeBkg i j) ≠ 0 →
        (∑ i, (createInitWH pinv data tmpl offset includeBkg).1 i j) = 1) ∧
      ((∑ i, createInitWHpreW pinv data tmpl offset includeBkg i j) = 0 →
        ∀ i, (createInitWH pinv data tmpl offset includeBkg).1 i j
          = createInitWHpreW pinv data tmpl offset includeBkg i j)) ∧
    (∀ (B K P : ℕ) (A : Matrix (Fin B) (Fin P) ℚ) (W : Matrix (Fin B) (Fin K) ℚ)
        (H : Matrix (Fin K) (Fin P) ℚ) (offset : ℚ) (includeBkg : Bool) (beta : ℚ)
        (diffOp : Option (List (Matrix (Fin P) (Fin P) ℚ))) (j : Fin K),
      (∀ i j, 0 ≤ A i j) → (∀ i j, 0 ≤ W i j) → (∀ k j, 0 ≤ H k j) →
      ((∑ i, multiplicativeUpdatePreW A W H i j) ≠ 0 →
        (∑ i, (multiplicativeUpdate A W H offset includeBkg beta diffOp).1 i j) = 1) ∧
      ((∑ i, multiplicativeUpdatePreW A W H i j) = 0 →
        ∀ i, (multiplicativeUpdate A W H offset includeBkg beta diffOp).1 i j
          = multiplicativeUpdatePreW A W H i j)) := by
  constructor
  · intro B K P pinv data tmpl offset includeBkg j
    constructor
    · intro hne
      simp only [createInitWH, Matrix.of_apply]
      rw [if_neg hne, ← Finset.sum_div]
      exact div_self hne
    · intro heq i
      simp only [createInitWH, Matrix.of_apply]
      rw [if_pos heq, div_one]
  · intro B K P A W H offset includeBkg beta diffOp j hA hW hH
    have hsum : (∑ i, absQ (multiplicativeUpdatePreW A W H i j))
        = ∑ i, multiplicativeUpdatePreW A W H i j :=
      Finset.sum_congr rfl fun i _ =>
        absQ_of_nonneg (multiplicativeUpdatePreW_nonneg A W H hA hW hH i j)
    constructor
    · intro hne
      simp only [multiplicativeUpdate, Matrix.of_apply]
      rw [hsum, if_neg hne, ← Finset.sum_div]
      exact div_self hne
    · intro heq i
      simp only [multiplicativeUpdate, Matrix.of_apply]
      rw [hsum, if_pos heq, div_one]

/-- Claim C2, witness: both conjuncts instantiated on concrete matrices
with nonzero pre-normalization column sums. -/
theorem c2_witness :
    (∑ i, (createInitWH (B := 1) (K := 1) (P := 1) (fun _ => !![(1 : ℚ)]) !![(2 : ℚ)]
        (fun _ _ _ => (3 : ℚ)) 0 false).1 i 0) = 1 ∧
    (∑ i, (multiplicativeUpdate (B := 1) (K := 1) (P := 1) !![(1 : ℚ)] !![(1 : ℚ)]
        !![(1 : ℚ)] 0 false 0 none).1 i 0) = 1 :=
  ⟨(c2_amended.1 1 1 1 (fun _ => !![(1 : ℚ)]) !![(2 : ℚ)] (fun _ _ _ => (3 : ℚ)) 0 false 0).1
      (by norm_num [createInitWHpreW, createInitWHintensity, Matrix.mul_apply]),
   ((c2_amended.2 1 1 1 !![(1 : ℚ)] !![(1 : ℚ)] !![(1 : ℚ)] 0 false 0 none 0)
      (fun i j => by simp) (fun i j => by simp) (fun k j => by simp)).1
      (by norm_num [multiplicativeUpdatePreW, epsQ, Matrix.mul_apply, Fin.sum_univ_succ])⟩

/-! ### Claim C7: the exact inverse update -/

theorem addEpsAll_transpose {n : ℕ} (M : Matrix (Fin n) (Fin n) ℚ) :
    (addEpsAll M)ᵀ = addEpsAll Mᵀ := by
  ext i j
  simp [addEpsAll]

theorem npInv_transpose {n : ℕ} (M : Matrix (Fin n) (Fin n) ℚ) :
    (npInv M)ᵀ = npInv Mᵀ := by
  unfold npInv
  rw [Matrix.transpose_smul, Matrix.adjugate_transpose, ← Matrix.det_transpose M]

theorem addEpsAll_gram_symm {K P : ℕ} (H : Matrix (Fin K) (Fin P) ℚ) :
    (addEpsAll (H * Hᵀ))ᵀ = addEpsAll (H * Hᵀ) := by
  rw [addEpsAll_transpose, Matrix.transpose_mul, Matrix.transpose_transpose]

/-- Claim C7 (amended): `inverseUpdate` computes
`W = A·Hᵀ·(H·Hᵀ + ε·ones)⁻¹` — the small regularizer is added to every
entry of the Gram matrix, not only to the diagonal — then normalizes `W`'s
columns by sums of absolute values with the zero-sum rule, and computes
`H = (Wᵀ·W + ε·ones)⁻¹·Wᵀ·A` with the updated `W`. -/
theorem c7_amended :
    ∀ (B K P : ℕ) (A : Matrix (Fin B) (Fin P) ℚ) (H : Matrix (Fin K) (Fin P) ℚ),
      inverseUpdate A H = inverseUpdateSpecOnes A H := by
  intro B K P A H
  have key : (npInv (addEpsAll (H * Hᵀ)) * (H * Aᵀ))ᵀ
      = A * Hᵀ * npInv (addEpsAll (H * Hᵀ)) := by
    rw [Matrix.transpose_mul, Matrix.transpose_mul, Matrix.transpose_transpose,
      npInv_transpose, addEpsAll_gram_symm]
  simp only [inverseUpdate, inverseUpdateSpecOnes]
  rw [key]

/-- Claim C7, counterexample: with `A = [[1]]` and `H = [[1], [0]]` the
update the source computes (regularizer broadcast to every entry of
`H·Hᵀ`) and the claimed εI-regularized update return different color
matrices: entry `(0,1)` is `-1` for the source and `0` for the εI
version. -/
theorem c7_counterexample :
    (inverseUpdate (B := 1) (K := 2) (P := 1) !![(1 : ℚ)] !![(1 : ℚ); (0 : ℚ)]).1 0 1 ≠
      (inverseUpdateSpecEpsI (B := 1) (K := 2) (P := 1) !![(1 : ℚ)] !![(1 : ℚ); (0 : ℚ)]).1 0 1 := by
  have hM : addEpsAll (!![(1 : ℚ); (0 : ℚ)] * (!![(1 : ℚ); (0 : ℚ)])ᵀ)
      = !![1 + epsQ, epsQ; epsQ, epsQ] := by
    ext i j
    fin_cases i <;> fin_cases j <;>
      simp [addEpsAll, Matrix.mul_apply, Fin.sum_univ_one, Matrix.transpose_apply,
        Matrix.vecHead, Matrix.vecTail]
  have hinv : npInv (addEpsAll (!![(1 : ℚ); (0 : ℚ)] * (!![(1 : ℚ); (0 : ℚ)])ᵀ))
      = !![1, -1; -1, (1 + epsQ) / epsQ] := by
    rw [hM]
    unfold npInv
    rw [Matrix.det_fin_two, Matrix.adjugate_fin_two]
    ext i j
    fin_cases i <;> fin_cases j <;> norm_num [epsQ]
  have hMI : !![(1 : ℚ); (0 : ℚ)] * (!![(1 : ℚ); (0 : ℚ)])ᵀ
        + epsQ • (1 : Matrix (Fin 2) (Fin 2) ℚ)
      = !![1 + epsQ, 0; 0, epsQ] := by
    ext i j
    fin_cases i <;> fin_cases j <;>
      simp [Matrix.mul_apply, Fin.sum_univ_one, Matrix.one_apply, Matrix.transpose_apply,
        Matrix.vecHead, Matrix.vecTail]
  have hinvI : npInv (!![(1 : ℚ); (0 : ℚ)] * (!![(1 : ℚ); (0 : ℚ)])ᵀ
        + epsQ • (1 : Matrix (Fin 2) (Fin 2) ℚ))
      = !![1 / (1 + epsQ), 0; 0, 1 / epsQ] := by
    rw [hMI]
    unfold npInv
    rw [Matrix.det_fin_two, Matrix.adjugate_fin_two]
    ext i j
    fin_cases i <;> fin_cases j <;> norm_num [epsQ]
  have hL : (inverseUpdate (B := 1) (K := 2) (P := 1) !![(1 : ℚ)] !![(1 : ℚ); (0 : ℚ)]).1 0 1
      = -1 := by
    simp only [inverseUpdate, Matrix.of_apply]
    rw [hinv]
    norm_num [Matrix.mul_apply, Matrix.transpose_apply, Fin.sum_univ_succ, absQ, epsQ,
      Matrix.vecHead, Matrix.vecTail]
  have hR : (inverseUpdateSpecEpsI (B := 1) (K := 2) (P := 1) !![(1 : ℚ)]
        !![(1 : ℚ); (0 : ℚ)]).1 0 1 = 0 := by
    simp only [inverseUpdateSpecEpsI, Matrix.of_apply]
    rw [hinvI]
    norm_num [Matrix.mul_apply, Matrix.transpose_apply, Fin.sum_univ_succ, absQ, epsQ,
      Matrix.vecHead, Matrix.vecTail]
  rw [hL, hR]
  norm_num

/-! ### Symmetry-operator geometry: range identities -/

theorem symXmin_add_symXmax (w px : ℕ) (hpx : px < w) :
    symXmin w px + symXmax w px = 2 * px + 1 := by
  unfold symXmin symXmax
  split_ifs <;> omega

theorem symYmin_add_symYmax (h py : ℕ) (hpy : py < h) :
    symYmin h py + symYmax h py = 2 * py + 1 := by
  unfold symYmin symYmax
  split_ifs <;> omega

theorem symXmin_le_px (w px : ℕ) (hpx : px < w) : symXmin w px ≤ px := by
  unfold symXmin
  split_ifs <;> omega

theorem px_lt_symXmax (w px : ℕ) (hpx : px < w) : px < symXmax w px := by
  unfold symXmax
  split_ifs <;> omega

theorem symXmax_le (w px : ℕ) : symXmax w px ≤ w := by
  unfold symXmax
  split_ifs <;> omega

theorem symYmin_le_py (h py : ℕ) (hpy : py < h) : symYmin h py ≤ py := by
  unfold symYmin
  split_ifs <;> omega

theorem py_lt_symYmax (h py : ℕ) (hpy : py < h) : py < symYmax h py := by
  unfold symYmax
  split_ifs <;> omega

theorem symYmax_le (h py : ℕ) : symYmax h py ≤ h := by
  unfold symYmax
  split_ifs <;> omega

theorem tWidth_add_extra (w px : ℕ) (hpx : px < w) :
    tWidthD w px + extraWidthD w px = w := by
  have h1 := symXmin_le_px w px hpx
  have h2 := px_lt_symXmax w px hpx
  have h3 := symXmax_le w px
  unfold extraWidthD tWidthD at *
  omega

theorem smin_add_pixels (h w px py : ℕ) (hpx : px < w) (hpy : py < h) :
    sminD h w px py + pixelsD h w px py = smaxD h w px py := by
  have hy1 := symYmin_le_py h py hpy
  have hy2 := py_lt_symYmax h py hpy
  have hx1 := symXmin_le_px w px hpx
  have hx2 := px_lt_symXmax w px hpx
  unfold sminD pixelsD smaxD tHeightD tWidthD
  zify [show symYmin h py ≤ symYmax h py by omega,
    show 1 ≤ symYmax h py - symYmin h py by omega,
    show symXmin w px ≤ symXmax w px by omega,
    show 1 ≤ symYmax h py by omega]
  ring

theorem smax_le_grid (h w px py : ℕ) (hpx : px < w) (hpy : py < h) :
    smaxD h w px py ≤ h * w := by
  have hy2 := py_lt_symYmax h py hpy
  have hy3 := symYmax_le h py
  have hx3 := symXmax_le w px
  unfold smaxD
  have t1 : (symYmax h py - 1) * w + w = symYmax h py * w := by
    have e : symYmax h py - 1 + 1 = symYmax h py := by omega
    calc (symYmax h py - 1) * w + w = (symYmax h py - 1 + 1) * w := by ring
      _ = symYmax h py * w := by rw [e]
  have t2 : symYmax h py * w ≤ h * w := Nat.mul_le_mul_right w hy3
  omega

/-! ### Flat pixel indices -/

theorem flat_lt_of_row_lt {w y1 x1 y2 : ℕ} (hx : x1 < w) (hy : y1 < y2) :
    y1 * w + x1 < y2 * w := by
  have t1 : (y1 + 1) * w ≤ y2 * w := Nat.mul_le_mul_right w hy
  have t2 : (y1 + 1) * w = y1 * w + w := by ring
  omega

theorem flat_lt_grid {h w y x : ℕ} (hy : y < h) (hx : x < w) : y * w + x < h * w :=
  flat_lt_of_row_lt hx hy

theorem flat_eq_unique {w y1 x1 y2 x2 : ℕ} (hx1 : x1 < w) (hx2 : x2 < w)
    (heq : y1 * w + x1 = y2 * w + x2) : y1 = y2 ∧ x1 = x2 := by
  rcases Nat.lt_trichotomy y1 y2 with hlt | he | hgt
  · have := flat_lt_of_row_lt hx1 hlt
    omega
  · subst he
    omega
  · have := flat_lt_of_row_lt hx2 hgt
    omega

/-! ### The zeroed diagonal set of the sub-block -/

theorem subOpZero_alt (h w px py r : ℕ) (hpx : px < w) :
    subOpZero h w px py r ↔
      ∃ a < tHeightD h py - 1, ∃ b < extraWidthD w px,
        r = a * w + tWidthD w px + b := by
  have hw := tWidth_add_extra w px hpx
  unfold subOpZero
  set t := tWidthD w px with ht
  set e := extraWidthD w px with he
  constructor <;> rintro ⟨a, ha, b, hb, hr⟩ <;> refine ⟨a, ha, b, hb, ?_⟩ <;>
    subst hr <;> rw [← hw] <;> ring

theorem subOpZero_reflect (h w px py r c : ℕ) (hpx : px < w) (hpy : py < h)
    (hrc : r + c + 1 = pixelsD h w px py) (hz : subOpZero h w px py r) :
    subOpZero h w px py c := by
  rw [subOpZero_alt h w px py r hpx] at hz
  rw [subOpZero_alt h w px py c hpx]
  obtain ⟨a, ha, b, hb, hr⟩ := hz
  have hw := tWidth_add_extra w px hpx
  refine ⟨tHeightD h py - 2 - a, by omega, extraWidthD w px - 1 - b, by omega, ?_⟩
  unfold pixelsD at hrc
  have e1 : tHeightD h py - 1 = (tHeightD h py - 2 - a) + (a + 1) := by omega
  rw [e1, Nat.add_mul] at hrc
  have e2 : (a + 1) * w = a * w + w := by ring
  rw [e2] at hrc
  omega

/-! ### Symmetry of the operator (claim C3) -/

theorem subOpFlip_symm (h w px py r c : ℕ) (hpx : px < w) (hpy : py < h)
    (hr : r < pixelsD h w px py) (hc : c < pixelsD h w px py) :
    subOpFlip h w px py r c = subOpFlip h w px py c r := by
  unfold subOpFlip subOpPre
  rw [if_pos hc, if_pos hr]
  by_cases hcase : r + c + 1 = pixelsD h w px py
  · by_cases hz : subOpZero h w px py r
    · rw [if_neg fun hcond => hcond.2.2 hz,
        if_neg fun hcond => hcond.2.2 (subOpZero_reflect h w px py r c hpx hpy hcase hz)]
    · have hzc : ¬subOpZero h w px py c := fun hzc =>
        hz (subOpZero_reflect h w px py c r hpx hpy (by omega) hzc)
      rw [if_pos ⟨by omega, hr, hz⟩, if_pos ⟨by omega, hc, hzc⟩]
  · rw [if_neg fun hcond => hcase (by obtain ⟨e, _, _⟩ := hcond; omega),
      if_neg fun hcond => hcase (by obtain ⟨e, _, _⟩ := hcond; omega)]

theorem getPeakSymmetryOperator_symm (rowSize h w px py : ℕ) (hpx : px < w) (hpy : py < h)
    (i j : ℕ) :
    getPeakSymmetryOperator rowSize h w px py i j
      = getPeakSymmetryOperator rowSize h w px py j i := by
  unfold getPeakSymmetryOperator
  split_ifs with hc
  · unfold fliplrEye
    by_cases hcon : i < rowSize ∧ j < rowSize ∧ i + j + 1 = rowSize
    · rw [if_pos hcon, if_pos ⟨hcon.2.1, hcon.1, by omega⟩]
    · rw [if_neg hcon, if_neg fun hc2 => hcon ⟨hc2.2.1, hc2.1, by omega⟩]
  · have hsp := smin_add_pixels h w px py hpx hpy
    simp only []
    by_cases hblk : sminD h w px py ≤ i ∧ i < smaxD h w px py ∧
        sminD h w px py ≤ j ∧ j < smaxD h w px py
    · rw [if_pos hblk, if_pos ⟨hblk.2.2.1, hblk.2.2.2, hblk.1, hblk.2.1⟩]
      exact subOpFlip_symm h w px py _ _ hpx hpy (by omega) (by omega)
    · rw [if_neg hblk, if_neg fun hb2 => hblk ⟨hb2.2.2.1, hb2.2.2.2, hb2.1, hb2.2.1⟩]

theorem getSymmetryDiffOp_length (K P h w : ℕ) (peaks : List (ℕ × ℕ)) :
    (getSymmetryDiffOp K P h w peaks).length = peaks.length := by
  simp [getSymmetryDiffOp, getSymmetryOperator]

theorem getSymmetryDiffOp_get (K P h w : ℕ) (peaks : List (ℕ × ℕ)) (n : ℕ)
    (hn : n < peaks.length) :
    (getSymmetryDiffOp K P h w peaks).get
        ⟨n, by rw [getSymmetryDiffOp_length]; exact hn⟩
      = (getPeakSymmetryOperatorSize ((K - n) * P) h w (peaks.get ⟨n, hn⟩).1
            (peaks.get ⟨n, hn⟩).2,
         fun i j =>
           eyeN (getPeakSymmetryOperatorSize ((K - n) * P) h w (peaks.get ⟨n, hn⟩).1
              (peaks.get ⟨n, hn⟩).2) i j
             + mmulN (getPeakSymmetryOperatorSize ((K - n) * P) h w (peaks.get ⟨n, hn⟩).1
                  (peaks.get ⟨n, hn⟩).2)
               (getPeakSymmetryOperator ((K - n) * P) h w (peaks.get ⟨n, hn⟩).1
                  (peaks.get ⟨n, hn⟩).2)
               (getPeakSymmetryOperator ((K - n) * P) h w (peaks.get ⟨n, hn⟩).1
                  (peaks.get ⟨n, hn⟩).2) i j
             - 2 * getPeakSymmetryOperator ((K - n) * P) h w (peaks.get ⟨n, hn⟩).1
                  (peaks.get ⟨n, hn⟩).2 i j) := by
  simp [getSymmetryDiffOp, getSymmetryOperator, List.get_eq_getElem, List.getElem_map,
    List.getElem_enum]

/-- Claim C3: for every source `s` with its peak inside the footprint grid,
the quadratic symmetry-violation penalty operator built by
`getSymmetryDiffOp` — computed in the source as `eye + S·S - 2S` — equals
`I + Sᵀ·S - 2S`, the form with the transpose in the middle term, because
the symmetry operator `S` the source builds is a symmetric matrix. -/
theorem c3_theorem (K P h w : ℕ) (peaks : List (ℕ × ℕ)) (n : ℕ) (hn : n < peaks.length)
    (hpx : (peaks.get ⟨n, hn⟩).1 < w) (hpy : (peaks.get ⟨n, hn⟩).2 < h) (i j : ℕ) :
    ((getSymmetryDiffOp K P h w peaks).get
        ⟨n, by rw [getSymmetryDiffOp_length]; exact hn⟩).2 i j
      = eyeN (getPeakSymmetryOperatorSize ((K - n) * P) h w (peaks.get ⟨n, hn⟩).1
            (peaks.get ⟨n, hn⟩).2) i j
        + mmulN (getPeakSymmetryOperatorSize ((K - n) * P) h w (peaks.get ⟨n, hn⟩).1
              (peaks.get ⟨n, hn⟩).2)
            (transposeN (getPeakSymmetryOperator ((K - n) * P) h w (peaks.get ⟨n, hn⟩).1
              (peaks.get ⟨n, hn⟩).2))
            (getPeakSymmetryOperator ((K - n) * P) h w (peaks.get ⟨n, hn⟩).1
              (peaks.get ⟨n, hn⟩).2) i j
        - 2 * getPeakSymmetryOperator ((K - n) * P) h w (peaks.get ⟨n, hn⟩).1
              (peaks.get ⟨n, hn⟩).2 i j := by
  rw [getSymmetryDiffOp_get K P h w peaks n hn]
  simp only []
  have hmm : mmulN (getPeakSymmetryOperatorSize ((K - n) * P) h w (peaks.get ⟨n, hn⟩).1
        (peaks.get ⟨n, hn⟩).2)
      (getPeakSymmetryOperator ((K - n) * P) h w (peaks.get ⟨n, hn⟩).1 (peaks.get ⟨n, hn⟩).2)
      (getPeakSymmetryOperator ((K - n) * P) h w (peaks.get ⟨n, hn⟩).1 (peaks.get ⟨n, hn⟩).2)
        i j
      = mmulN (getPeakSymmetryOperatorSize ((K - n) * P) h w (peaks.get ⟨n, hn⟩).1
            (peaks.get ⟨n, hn⟩).2)
          (transposeN (getPeakSymmetryOperator ((K - n) * P) h w (peaks.get ⟨n, hn⟩).1
            (peaks.get ⟨n, hn⟩).2))
          (getPeakSymmetryOperator ((K - n) * P) h w (peaks.get ⟨n, hn⟩).1
            (peaks.get ⟨n, hn⟩).2) i j := by
    unfold mmulN transposeN
    refine Finset.sum_congr rfl fun k _ => ?_
    rw [getPeakSymmetryOperator_symm ((K - n) * P) h w (peaks.get ⟨n, hn⟩).1
      (peaks.get ⟨n, hn⟩).2 hpx hpy i k]
  rw [hmm]

/-- Claim C3, witness: the identity instantiated for a 2×3 footprint with
the off-center peak (0, 0), single source, at matrix entry (4, 1). -/
theorem c3_witness :
    ((getSymmetryDiffOp 1 6 2 3 [(0, 0)]).get
        ⟨0, by rw [getSymmetryDiffOp_length]; decide⟩).2 4 1
      = eyeN (getPeakSymmetryOperatorSize 6 2 3 0 0) 4 1
        + mmulN (getPeakSymmetryOperatorSize 6 2 3 0 0)
            (transposeN (getPeakSymmetryOperator 6 2 3 0 0))
            (getPeakSymmetryOperator 6 2 3 0 0) 4 1
        - 2 * getPeakSymmetryOperator 6 2 3 0 0 4 1 :=
  c3_theorem 1 6 2 3 [(0, 0)] 0 (by decide) (by decide) (by decide) 4 1

/-- Claim C6: for an off-center peak inside the grid whose symmetric
sub-rectangle leaves a remainder (`extraWidth > 0`), every index
`idx = (i+1)*tWidth + i*extraWidth + j` of an extra trailing column of an
interior sub-rectangle row has its whole row of the pre-reversal sub-block
zeroed (`subOp[idx, :] = 0`, in particular the diagonal entry), and the
corresponding diagonal entry of the embedded symmetry operator `S` at flat
position `smin + idx` is zero, so no reflected pixel wraps into the wrong
row. -/
theorem c6_theorem (h w px py : ℕ) (hpx : px < w) (hpy : py < h)
    (hnc : ¬(2 * px + 1 = w ∧ 2 * py + 1 = h)) (hex : 0 < extraWidthD w px)
    (a b : ℕ) (ha : a < tHeightD h py - 1) (hb : b < extraWidthD w px) :
    (∀ c, subOpPre h w px py ((a + 1) * tWidthD w px + a * extraWidthD w px + b) c = 0) ∧
      getPeakSymmetryOperator (h * w) h w px py
          (sminD h w px py + ((a + 1) * tWidthD w px + a * extraWidthD w px + b))
          (sminD h w px py + ((a + 1) * tWidthD w px + a * extraWidthD w px + b)) = 0 := by
  have hz : subOpZero h w px py ((a + 1) * tWidthD w px + a * extraWidthD w px + b) :=
    ⟨a, ha, b, hb, rfl⟩
  have hw := tWidth_add_extra w px hpx
  have halt : (a + 1) * tWidthD w px + a * extraWidthD w px + b
      = a * w + tWidthD w px + b := by
    set t := tWidthD w px with ht
    set e := extraWidthD w px with he
    rw [← hw]
    ring
  have hlt : (a + 1) * tWidthD w px + a * extraWidthD w px + b < pixelsD h w px py := by
    have h1 : (a + 1) * w ≤ (tHeightD h py - 1) * w := Nat.mul_le_mul_right w (by omega)
    have h2 : (a + 1) * w = a * w + w := by ring
    unfold pixelsD
    omega
  constructor
  · intro c
    unfold subOpPre
    rw [if_neg fun hcond => hcond.2.2 hz]
  · have hsp := smin_add_pixels h w px py hpx hpy
    unfold getPeakSymmetryOperator
    rw [if_neg hnc]
    rw [if_pos ⟨Nat.le_add_right _ _, by omega, Nat.le_add_right _ _, by omega⟩]
    rw [Nat.add_sub_cancel_left]
    unfold subOpFlip
    rw [if_pos hlt]
    unfold subOpPre
    rw [if_neg fun hcond => hcond.2.2 hz]

/-- Claim C6, witness: a 3×3 footprint with the off-center peak (0, 1)
(`tWidth = 1`, `extraWidth = 2`, `tHeight = 3`); the interior-row index
`idx = 1` (for `i = 0`, `j = 0`) has a zero row before reversal and a zero
diagonal entry in `S`. -/
theorem c6_witness :
    subOpPre 3 3 0 1 ((0 + 1) * tWidthD 3 0 + 0 * extraWidthD 3 0 + 0) 5 = 0 ∧
      getPeakSymmetryOperator (3 * 3) 3 3 0 1
          (sminD 3 3 0 1 + ((0 + 1) * tWidthD 3 0 + 0 * extraWidthD 3 0 + 0))
          (sminD 3 3 0 1 + ((0 + 1) * tWidthD 3 0 + 0 * extraWidthD 3 0 + 0)) = 0 :=
  ⟨(c6_theorem 3 3 0 1 (by decide) (by decide) (by decide) (by decide) 0 0
      (by decide) (by decide)).1 5,
   (c6_theorem 3 3 0 1 (by decide) (by decide) (by decide) (by decide) 0 0
      (by decide) (by decide)).2⟩

/-! ### Action of the symmetry operator on intensity rows (claim C5) -/

theorem mulVecN_zero_row (n : ℕ) (M : ℕ → ℕ → ℚ) (v : ℕ → ℚ) (i : ℕ)
    (hM : ∀ k, M i k = 0) : mulVecN n M v i = 0 := by
  unfold mulVecN
  exact Finset.sum_eq_zero fun k _ => by rw [hM k, zero_mul]

theorem mulVecN_indicator (n : ℕ) (M : ℕ → ℕ → ℚ) (v : ℕ → ℚ) (i k0 : ℕ)
    (hk0 : k0 < n) (hM : ∀ k, M i k = if k = k0 then 1 else 0) :
    mulVecN n M v i = v k0 := by
  unfold mulVecN
  have hterm : ∀ k ∈ Finset.range n, M i k * v k = if k = k0 then v k else 0 := by
    intro k _
    rw [hM k]
    by_cases hk : k = k0
    · rw [if_pos hk, one_mul, if_pos hk]
    · rw [if_neg hk, zero_mul, if_neg hk]
  rw [Finset.sum_congr rfl hterm, Finset.sum_ite_eq' (Finset.range n) k0 v,
    if_pos (Finset.mem_range.mpr hk0)]

theorem mulVecN_mmulN (n : ℕ) (M N : ℕ → ℕ → ℚ) (v : ℕ → ℚ) (i : ℕ) :
    mulVecN n (mmulN n M N) v i = mulVecN n M (mulVecN n N v) i := by
  unfold mulVecN mmulN
  calc ∑ k in Finset.range n, (∑ m in Finset.range n, M i m * N m k) * v k
      = ∑ k in Finset.range n, ∑ m in Finset.range n, M i m * N m k * v k := by
        refine Finset.sum_congr rfl fun k _ => ?_
        rw [Finset.sum_mul]
    _ = ∑ m in Finset.range n, ∑ k in Finset.range n, M i m * N m k * v k :=
        Finset.sum_comm
    _ = ∑ m in Finset.range n, M i m * ∑ k in Finset.range n, N m k * v k := by
        refine Finset.sum_congr rfl fun m _ => ?_
        rw [Finset.mul_sum]
        exact Finset.sum_congr rfl fun k _ => mul_assoc _ _ _

theorem mulVecN_eyeN (n : ℕ) (v : ℕ → ℚ) (i : ℕ) :
    mulVecN n (eyeN n) v i = if i < n then v i else 0 := by
  unfold mulVecN eyeN
  by_cases hi : i < n
  · rw [if_pos hi]
    have hterm : ∀ k ∈ Finset.range n,
        (if i = k ∧ i < n then (1 : ℚ) else 0) * v k = if k = i then v k else 0 := by
      intro k _
      by_cases hki : k = i
      · subst hki
        rw [if_pos ⟨rfl, hi⟩, one_mul, if_pos rfl]
      · rw [if_neg fun hcond => hki hcond.1.symm, zero_mul, if_neg hki]
    rw [Finset.sum_congr rfl hterm, Finset.sum_ite_eq' (Finset.range n) i v,
      if_pos (Finset.mem_range.mpr hi)]
  · rw [if_neg hi, Finset.sum_eq_zero]
    intro k _
    rw [if_neg fun hcond => hi hcond.2, zero_mul]

theorem getPeakSymmetryOperatorSize_grid (h w px py : ℕ) :
    getPeakSymmetryOperatorSize (h * w) h w px py = h * w := by
  unfold getPeakSymmetryOperatorSize
  split_ifs <;> rfl

theorem peakOp_out_of_block (rowSize h w px py i : ℕ)
    (hc : ¬(2 * px + 1 = w ∧ 2 * py + 1 = h))
    (hout : i < sminD h w px py ∨ smaxD h w px py ≤ i) :
    ∀ k, getPeakSymmetryOperator rowSize h w px py i k = 0 := by
  intro k
  unfold getPeakSymmetryOperator
  rw [if_neg hc]
  rw [if_neg fun hcond => by obtain ⟨a1, a2, _, _⟩ := hcond; rcases hout with h1 | h1 <;> omega]

theorem peakOp_row_zero (rowSize h w px py i : ℕ)
    (hc : ¬(2 * px + 1 = w ∧ 2 * py + 1 = h))
    (hin : sminD h w px py ≤ i ∧ i < smaxD h w px py)
    (hz : subOpZero h w px py (i - sminD h w px py)) :
    ∀ k, getPeakSymmetryOperator rowSize h w px py i k = 0 := by
  intro k
  unfold getPeakSymmetryOperator
  rw [if_neg hc]
  by_cases hkb : sminD h w px py ≤ k ∧ k < smaxD h w px py
  · rw [if_pos ⟨hin.1, hin.2, hkb.1, hkb.2⟩]
    unfold subOpFlip
    split_ifs with h1
    · unfold subOpPre
      rw [if_neg fun hcond => hcond.2.2 hz]
    · rfl
  · rw [if_neg fun hcond => hkb ⟨hcond.2.2.1, hcond.2.2.2⟩]

theorem peakOp_indicator (rowSize h w px py i : ℕ) (hpx : px < w) (hpy : py < h)
    (hc : ¬(2 * px + 1 = w ∧ 2 * py + 1 = h))
    (hin : sminD h w px py ≤ i ∧ i < smaxD h w px py)
    (hnz : ¬subOpZero h w px py (i - sminD h w px py)) :
    ∀ k, getPeakSymmetryOperator rowSize h w px py i k
      = if k = sminD h w px py + (pixelsD h w px py - 1 - (i - sminD h w px py))
        then 1 else 0 := by
  intro k
  have hsp := smin_add_pixels h w px py hpx hpy
  unfold getPeakSymmetryOperator
  rw [if_neg hc]
  by_cases hkb : sminD h w px py ≤ k ∧ k < smaxD h w px py
  · rw [if_pos ⟨hin.1, hin.2, hkb.1, hkb.2⟩]
    unfold subOpFlip
    rw [if_pos (show k - sminD h w px py < pixelsD h w px py by omega)]
    unfold subOpPre
    by_cases hke : k = sminD h w px py + (pixelsD h w px py - 1 - (i - sminD h w px py))
    · rw [if_pos ⟨by omega, by omega, hnz⟩, if_pos hke]
    · rw [if_neg fun hcond => hke (by obtain ⟨e1, _, _⟩ := hcond; omega), if_neg hke]
  · rw [if_neg fun hcond => hkb ⟨hcond.2.2.1, hcond.2.2.2⟩,
      if_neg fun hke => hkb (by subst hke; omega)]

theorem centered_refl_flat (h w y x : ℕ) (hy : y < h) (hx : x < w) :
    (y * w + x) + ((h - 1 - y) * w + (w - 1 - x)) + 1 = h * w := by
  have e1 : (h - 1 - y) + y = h - 1 := by omega
  have e2 : (h - 1 - y) * w + y * w = (h - 1) * w := by rw [← Nat.add_mul, e1]
  have e3 : (h - 1) * w + w = h * w := by
    have e : h - 1 + 1 = h := by omega
    calc (h - 1) * w + w = (h - 1 + 1) * w := by ring
      _ = h * w := by rw [e]
  omega

theorem rect_in_block (h w px py y x : ℕ) (hx : x < w)
    (hr : inRect h w px py y x) :
    sminD h w px py ≤ y * w + x ∧ y * w + x < smaxD h w px py := by
  obtain ⟨h1, h2, h3, h4⟩ := hr
  have t1 : symYmin h py * w ≤ y * w := Nat.mul_le_mul_right w h1
  have t2 : y * w ≤ (symYmax h py - 1) * w := Nat.mul_le_mul_right w (by omega)
  unfold sminD smaxD
  omega

theorem rect_r_eq (h w px py y x : ℕ) (h1 : symYmin h py ≤ y) (h3 : symXmin w px ≤ x) :
    y * w + x - sminD h w px py = (y - symYmin h py) * w + (x - symXmin w px) := by
  have e : (y - symYmin h py) + symYmin h py = y := by omega
  have e2 : (y - symYmin h py) * w + symYmin h py * w = y * w := by rw [← Nat.add_mul, e]
  unfold sminD
  omega

theorem rect_not_inZ (h w px py y x : ℕ) (hpx : px < w) (hpy : py < h) (hx : x < w)
    (hr : inRect h w px py y x) :
    ¬subOpZero h w px py (y * w + x - sminD h w px py) := by
  intro hz
  rw [subOpZero_alt _ _ _ _ _ hpx] at hz
  obtain ⟨a, ha, b, hb, he⟩ := hz
  obtain ⟨h1, h2, h3, h4⟩ := hr
  rw [rect_r_eq h w px py y x h1 h3] at he
  have hw := tWidth_add_extra w px hpx
  have hxlt : x - symXmin w px < w := by omega
  have htb : tWidthD w px + b < w := by
    unfold tWidthD extraWidthD at *
    omega
  have he2 : (y - symYmin h py) * w + (x - symXmin w px)
      = a * w + (tWidthD w px + b) := by omega
  obtain ⟨hyy, hxx⟩ := flat_eq_unique hxlt htb he2
  unfold tWidthD at hxx
  omega

theorem rect_refl_add (h w px py y x : ℕ) (hpx : px < w) (hpy : py < h)
    (hr : inRect h w px py y x) :
    ((2 * py - y) * w + (2 * px - x)) + (y * w + x) + 1
      = 2 * sminD h w px py + pixelsD h w px py := by
  obtain ⟨h1, h2, h3, h4⟩ := hr
  have hy1 := symYmin_add_symYmax h py hpy
  have hx1 := symXmin_add_symXmax w px hpx
  have hyle : y ≤ 2 * py := by omega
  have hxle : x ≤ 2 * px := by omega
  unfold sminD pixelsD tHeightD tWidthD
  zify [hyle, hxle, show symYmin h py ≤ symYmax h py by omega,
    show 1 ≤ symYmax h py - symYmin h py by omega,
    show symXmin w px ≤ symXmax w px by omega]
  have hy1i : (symYmin h py : ℤ) + symYmax h py = 2 * py + 1 := by exact_mod_cast hy1
  have hx1i : (symXmin w px : ℤ) + symXmax w px = 2 * px + 1 := by exact_mod_cast hx1
  linear_combination (-(w : ℤ)) * hy1i - hx1i

theorem rect_k0_eq (h w px py y x : ℕ) (hpx : px < w) (hpy : py < h) (hx : x < w)
    (hr : inRect h w px py y x) :
    sminD h w px py + (pixelsD h w px py - 1 - (y * w + x - sminD h w px py))
      = (2 * py - y) * w + (2 * px - x) := by
  have hadd := rect_refl_add h w px py y x hpx hpy hr
  have hblk := rect_in_block h w px py y x hx hr
  have hsp := smin_add_pixels h w px py hpx hpy
  omega

theorem rect_refl_lt (h w px py y x : ℕ) (hpx : px < w) (hpy : py < h)
    (hr : inRect h w px py y x) : 2 * py - y < h ∧ 2 * px - x < w := by
  obtain ⟨h1, h2, h3, h4⟩ := hr
  have hy1 := symYmin_add_symYmax h py hpy
  have hx1 := symXmin_add_symXmax w px hpx
  have hy2 := symYmax_le h py
  have hx2 := symXmax_le w px
  omega

theorem peakSym_fixes (h w px py : ℕ) (v : ℕ → ℚ) (hpx : px < w) (hpy : py < h)
    (hsupp : ∀ y, y < h → ∀ x, x < w → ¬inRect h w px py y x → v (y * w + x) = 0)
    (hsym : pointSymmetric h w px py v) :
    ∀ y, y < h → ∀ x, x < w →
      mulVecN (h * w) (getPeakSymmetryOperator (h * w) h w px py) v (y * w + x)
        = v (y * w + x) := by
  intro y hy x hx
  by_cases hc : 2 * px + 1 = w ∧ 2 * py + 1 = h
  · have hS : getPeakSymmetryOperator (h * w) h w px py = fliplrEye (h * w) := by
      unfold getPeakSymmetryOperator
      rw [if_pos hc]
    rw [hS]
    have hi : y * w + x < h * w := flat_lt_grid hy hx
    have hradd := centered_refl_flat h w y x hy hx
    have hk0 : (h - 1 - y) * w + (w - 1 - x) < h * w := flat_lt_grid (by omega) (by omega)
    have hind : ∀ k, fliplrEye (h * w) (y * w + x) k
        = if k = (h - 1 - y) * w + (w - 1 - x) then 1 else 0 := by
      intro k
      unfold fliplrEye
      by_cases hke : k = (h - 1 - y) * w + (w - 1 - x)
      · rw [if_pos ⟨hi, by omega, by omega⟩, if_pos hke]
      · rw [if_neg fun hcond => hke (by obtain ⟨_, _, e⟩ := hcond; omega), if_neg hke]
    rw [mulVecN_indicator (h * w) _ v _ _ hk0 hind]
    exact (hsym y hy x hx (h - 1 - y) (by omega) (w - 1 - x) (by omega)
      (by omega) (by omega)).symm
  · have hsp := smin_add_pixels h w px py hpx hpy
    have hy1 := symYmin_add_symYmax h py hpy
    have hx1 := symXmin_add_symXmax w px hpx
    have hxm := symXmin_le_px w px hpx
    have hxM := px_lt_symXmax w px hpx
    have hxM2 := symXmax_le w px
    have hym := symYmin_le_py h py hpy
    have hyM := py_lt_symYmax h py hpy
    have hyM2 := symYmax_le h py
    have hw := tWidth_add_extra w px hpx
    rcases Nat.lt_or_ge y (symYmin h py) with hylt | hyge
    · have hout : y * w + x < sminD h w px py := by
        have := flat_lt_of_row_lt hx hylt
        unfold sminD
        omega
      rw [mulVecN_zero_row (h * w) _ v (y * w + x)
        (peakOp_out_of_block (h * w) h w px py (y * w + x) hc (Or.inl hout))]
      rw [hsupp y hy x hx fun hr => by obtain ⟨a1, _, _, _⟩ := hr; omega]
    · rcases Nat.lt_or_ge y (symYmax h py) with hylt2 | hyge2
      · rcases Nat.lt_or_ge x (symXmin w px) with hxlt | hxge
        · rcases Nat.eq_or_lt_of_le hyge with hyeq | hygt
          · have hout : y * w + x < sminD h w px py := by
              unfold sminD
              rw [hyeq]
              omega
            rw [mulVecN_zero_row (h * w) _ v (y * w + x)
              (peakOp_out_of_block (h * w) h w px py (y * w + x) hc (Or.inl hout))]
            rw [hsupp y hy x hx fun hr => by obtain ⟨_, _, a3, _⟩ := hr; omega]
          · have hin : sminD h w px py ≤ y * w + x ∧ y * w + x < smaxD h w px py := by
              constructor
              · have t1 : (symYmin h py + 1) * w ≤ y * w := Nat.mul_le_mul_right w hygt
                have t2 : (symYmin h py + 1) * w = symYmin h py * w + w := by ring
                unfold sminD
                omega
              · have t2 : y * w ≤ (symYmax h py - 1) * w :=
                  Nat.mul_le_mul_right w (by omega)
                unfold smaxD
                omega
            have hrdec : y * w + x - sminD h w px py
                = (y - symYmin h py - 1) * w + (w + x - symXmin w px) := by
              have e : (y - symYmin h py - 1) + (symYmin h py + 1) = y := by omega
              have e2 : (y - symYmin h py - 1) * w + (symYmin h py + 1) * w = y * w := by
                rw [← Nat.add_mul, e]
              have e3 : (symYmin h py + 1) * w = symYmin h py * w + w := by ring
              unfold sminD
              omega
            have hz : subOpZero h w px py (y * w + x - sminD h w px py) := by
              rw [subOpZero_alt _ _ _ _ _ hpx]
              have hth : tHeightD h py = symYmax h py - symYmin h py := rfl
              have htw : tWidthD w px = symXmax w px - symXmin w px := rfl
              have hew : extraWidthD w px = w - tWidthD w px := rfl
              refine ⟨y - symYmin h py - 1, by omega,
                w + x - symXmin w px - tWidthD w px, by omega, ?_⟩
              rw [hrdec]
              omega
            rw [mulVecN_zero_row (h * w) _ v (y * w + x)
              (peakOp_row_zero (h * w) h w px py (y * w + x) hc hin hz)]
            rw [hsupp y hy x hx fun hr => by obtain ⟨_, _, a3, _⟩ := hr; omega]
        · rcases Nat.lt_or_ge x (symXmax w px) with hxlt2 | hxge2
          · have hr : inRect h w px py y x := ⟨hyge, hylt2, hxge, hxlt2⟩
            have hin := rect_in_block h w px py y x hx hr
            have hnz := rect_not_inZ h w px py y x hpx hpy hx hr
            have hk0eq := rect_k0_eq h w px py y x hpx hpy hx hr
            have hb := rect_refl_lt h w px py y x hpx hpy hr
            have hind := peakOp_indicator (h * w) h w px py (y * w + x) hpx hpy hc hin hnz
            have hk0lt : sminD h w px py
                + (pixelsD h w px py - 1 - (y * w + x - sminD h w px py)) < h * w := by
              have := smax_le_grid h w px py hpx hpy
              omega
            rw [mulVecN_indicator (h * w) _ v _ _ hk0lt hind, hk0eq]
            exact (hsym y hy x hx (2 * py - y) hb.1 (2 * px - x) hb.2
              (by omega) (by omega)).symm
          · rcases Nat.lt_or_ge y (symYmax h py - 1) with hy3 | hy3
            · have hin : sminD h w px py ≤ y * w + x ∧ y * w + x < smaxD h w px py := by
                constructor
                · have t1 : symYmin h py * w ≤ y * w := Nat.mul_le_mul_right w hyge
                  unfold sminD
                  omega
                · have := flat_lt_of_row_lt hx hy3
                  unfold smaxD
                  omega
              have hrdec : y * w + x - sminD h w px py
                  = (y - symYmin h py) * w + (x - symXmin w px) :=
                rect_r_eq h w px py y x hyge (by omega)
              have hz : subOpZero h w px py (y * w + x - sminD h w px py) := by
                rw [subOpZero_alt _ _ _ _ _ hpx]
                have hth : tHeightD h py = symYmax h py - symYmin h py := rfl
                have htw : tWidthD w px = symXmax w px - symXmin w px := rfl
                have hew : extraWidthD w px = w - tWidthD w px := rfl
                refine ⟨y - symYmin h py, by omega, x - symXmax w px, by omega, ?_⟩
                rw [hrdec]
                omega
              rw [mulVecN_zero_row (h * w) _ v (y * w + x)
                (peakOp_row_zero (h * w) h w px py (y * w + x) hc hin hz)]
              rw [hsupp y hy x hx fun hr => by obtain ⟨_, _, _, a4⟩ := hr; omega]
            · have hout : smaxD h w px py ≤ y * w + x := by
                have t1 : (symYmax h py - 1) * w ≤ y * w := Nat.mul_le_mul_right w hy3
                unfold smaxD
                omega
              rw [mulVecN_zero_row (h * w) _ v (y * w + x)
                (peakOp_out_of_block (h * w) h w px py (y * w + x) hc (Or.inr hout))]
              rw [hsupp y hy x hx fun hr => by obtain ⟨_, _, _, a4⟩ := hr; omega]
      · have hout : smaxD h w px py ≤ y * w + x := by
          have t1 : symYmax h py * w ≤ y * w := Nat.mul_le_mul_right w hyge2
          have t2 : (symYmax h py - 1) * w + w = symYmax h py * w := by
            have e : symYmax h py - 1 + 1 = symYmax h py := by omega
            calc (symYmax h py - 1) * w + w = (symYmax h py - 1 + 1) * w := by ring
              _ = symYmax h py * w := by rw [e]
          unfold smaxD
          omega
        rw [mulVecN_zero_row (h * w) _ v (y * w + x)
          (peakOp_out_of_block (h * w) h w px py (y * w + x) hc (Or.inr hout))]
        rw [hsupp y hy x hx fun hr => by obtain ⟨_, a2, _, _⟩ := hr; omega]

/-- Claim C5 (amended): for a source with its peak inside the footprint
grid, if the flattened intensity row `v` is perfectly point-symmetric
about the peak AND vanishes outside the symmetric sub-rectangle the
operator is restricted to, then `S·v = v` on every grid pixel, and the
difference operator built as in `getSymmetryDiffOp` satisfies `D·v = 0`
exactly.  Without the support restriction the property fails
(`c5_counterexample`). -/
theorem c5_amended (h w px py : ℕ) (v : ℕ → ℚ) (hpx : px < w) (hpy : py < h)
    (hsupp : ∀ y, y < h → ∀ x, x < w → ¬inRect h w px py y x → v (y * w + x) = 0)
    (hsym : pointSymmetric h w px py v) (y x : ℕ) (hy : y < h) (hx : x < w) :
    mulVecN (h * w) (getPeakSymmetryOperator (h * w) h w px py) v (y * w + x)
        = v (y * w + x) ∧
      mulVecN (h * w) (peakSymmetryDiffOp (h * w) h w px py) v (y * w + x) = 0 := by
  have hfixyx := peakSym_fixes h w px py v hpx hpy hsupp hsym
  have hw0 : 0 < w := by omega
  have hfix : ∀ k, k < h * w →
      mulVecN (h * w) (getPeakSymmetryOperator (h * w) h w px py) v k = v k := by
    intro k hk
    have hcomm : k / w * w = w * (k / w) := Nat.mul_comm _ _
    have hdm := Nat.div_add_mod k w
    have hk2 : k = k / w * w + k % w := by omega
    have hx2 : k % w < w := Nat.mod_lt _ hw0
    have hy2 : k / w < h := by
      rw [Nat.div_lt_iff_lt_mul hw0]
      omega
    rw [hk2]
    exact hfixyx _ hy2 _ hx2
  refine ⟨hfixyx y hy x hx, ?_⟩
  have hsz := getPeakSymmetryOperatorSize_grid h w px py
  have hDform : mulVecN (h * w) (peakSymmetryDiffOp (h * w) h w px py) v (y * w + x)
      = mulVecN (h * w) (eyeN (h * w)) v (y * w + x)
        + mulVecN (h * w)
            (mmulN (h * w) (getPeakSymmetryOperator (h * w) h w px py)
              (getPeakSymmetryOperator (h * w) h w px py)) v (y * w + x)
        - 2 * mulVecN (h * w) (getPeakSymmetryOperator (h * w) h w px py) v (y * w + x) := by
    unfold peakSymmetryDiffOp mulVecN
    rw [hsz]
    have hterm : ∀ k ∈ Finset.range (h * w),
        (eyeN (h * w) (y * w + x) k
            + mmulN (h * w) (getPeakSymmetryOperator (h * w) h w px py)
                (getPeakSymmetryOperator (h * w) h w px py) (y * w + x) k
            - 2 * getPeakSymmetryOperator (h * w) h w px py (y * w + x) k) * v k
          = eyeN (h * w) (y * w + x) k * v k
            + mmulN (h * w) (getPeakSymmetryOperator (h * w) h w px py)
                (getPeakSymmetryOperator (h * w) h w px py) (y * w + x) k * v k
            - 2 * (getPeakSymmetryOperator (h * w) h w px py (y * w + x) k * v k) := by
      intro k _
      ring
    rw [Finset.sum_congr rfl hterm, Finset.sum_sub_distrib, Finset.sum_add_distrib,
      ← Finset.mul_sum]
  rw [hDform, mulVecN_eyeN, if_pos (flat_lt_grid hy hx), mulVecN_mmulN]
  have hSSv : mulVecN (h * w) (getPeakSymmetryOperator (h * w) h w px py)
      (mulVecN (h * w) (getPeakSymmetryOperator (h * w) h w px py) v) (y * w + x)
      = mulVecN (h * w) (getPeakSymmetryOperator (h * w) h w px py) v (y * w + x) := by
    have hterm : ∀ k ∈ Finset.range (h * w),
        getPeakSymmetryOperator (h * w) h w px py (y * w + x) k
            * mulVecN (h * w) (getPeakSymmetryOperator (h * w) h w px py) v k
          = getPeakSymmetryOperator (h * w) h w px py (y * w + x) k * v k := by
      intro k hk
      rw [hfix k (Finset.mem_range.mp hk)]
    calc mulVecN (h * w) (getPeakSymmetryOperator (h * w) h w px py)
          (mulVecN (h * w) (getPeakSymmetryOperator (h * w) h w px py) v) (y * w + x)
        = ∑ k in Finset.range (h * w),
            getPeakSymmetryOperator (h * w) h w px py (y * w + x) k
              * mulVecN (h * w) (getPeakSymmetryOperator (h * w) h w px py) v k := rfl
      _ = ∑ k in Finset.range (h * w),
            getPeakSymmetryOperator (h * w) h w px py (y * w + x) k * v k :=
          Finset.sum_congr rfl hterm
      _ = mulVecN (h * w) (getPeakSymmetryOperator (h * w) h w px py) v (y * w + x) := rfl
  rw [hSSv, hfixyx y hy x hx]
  ring

/-- Claim C5, witness: a perfectly symmetric row `(2, 5, 2)` on a 1×3
footprint with the peak exactly at the center is fixed by `S` and
annihilated by `D` at pixel 0. -/
theorem c5_witness :
    mulVecN (1 * 3) (getPeakSymmetryOperator (1 * 3) 1 3 1 0)
          (fun i => if i = 0 then 2 else if i = 1 then 5 else if i = 2 then 2 else 0)
          (0 * 3 + 0)
        = (fun i : ℕ => if i = 0 then (2 : ℚ) else if i = 1 then 5 else if i = 2 then 2 else 0)
            (0 * 3 + 0) ∧
      mulVecN (1 * 3) (peakSymmetryDiffOp (1 * 3) 1 3 1 0)
          (fun i => if i = 0 then 2 else if i = 1 then 5 else if i = 2 then 2 else 0)
          (0 * 3 + 0) = 0 :=
  c5_amended 1 3 1 0
    (fun i => if i = 0 then 2 else if i = 1 then 5 else if i = 2 then 2 else 0)
    (by decide) (by decide)
    (by
      intro y hy x hx hr
      exact absurd ⟨by simp [symYmin], by simpa [symYmax] using hy,
        by simp [symXmin], by simpa [symXmax] using hx⟩ hr)
    (by decide) 0 0 (by decide) (by decide)

/-- Claim C5, counterexample: the all-ones intensity row on a 1×3
footprint is perfectly point-symmetric about the edge peak (0, 0) — every
mirrored pair that lies inside the grid is trivial — yet applying the
symmetry operator does not return it unchanged: the operator zeroes every
pixel outside the one-pixel symmetric sub-rectangle. -/
theorem c5_counterexample :
    pointSymmetric 1 3 0 0 c5RowExample ∧
      mulVecN 3 (getPeakSymmetryOperator 3 1 3 0 0) c5RowExample 1 ≠ c5RowExample 1 := by
  constructor
  · decide
  · have hrow : ∀ k, getPeakSymmetryOperator 3 1 3 0 0 1 k = 0 :=
      peakOp_out_of_block 3 1 3 0 0 1 (by decide) (Or.inr (by decide))
    rw [mulVecN_zero_row 3 _ c5RowExample 1 hrow]
    norm_num [c5RowExample]
